import Mathlib

/-!
Verification development for the rule-orchestration core of a markdown
processor: the `Ruler` registry (ruler.py) and the smartquotes token
rewrite (rules_core/smartquotes.py).  Every definition is a shallow
embedding of the corresponding Python function; machine strings become
`List Char`, in-place mutation becomes explicit state passing, and a
raised `KeyError` becomes an `Except.error` carrying the message text.
-/

set_option autoImplicit false

deriving instance DecidableEq for Except

namespace Mdit

/-! ## Ruler (ruler.py)

`Rule` mirrors the attrs class `Rule` (name, enabled, fn, alt); the rule
payload is opaque to the Ruler, so it is a type parameter `F`.  `Ruler`
mirrors the `Ruler` class: the ordered rule list `__rules__` and the lazy
chain cache `__cache__` (a dict from chain name to function list, `none`
when stale).  The cache dict is embedded as an association list; dict
iteration order of the python `set` of chain names only affects key
order, which `dict.get` (embedded as `lookupChain`) cannot observe.
-/

structure Rule (F : Type) where
  name : String
  enabled : Bool
  fn : F
  alt : List String
deriving DecidableEq

structure Ruler (F : Type) where
  rules : List (Rule F)
  cache : Option (List (String × List F))
deriving DecidableEq

/-- Positional list indexing, `l[i]` returning `none` out of bounds. -/
def nth {α : Type} : List α → Nat → Option α
  | [], _ => none
  | x :: _, 0 => some x
  | _ :: rest, n + 1 => nth rest n

/-- Replace the element at an index (no-op out of bounds), as in a
python list item assignment. -/
def setIdx {α : Type} : List α → Nat → α → List α
  | [], _, _ => []
  | _ :: rest, 0, a => a :: rest
  | x :: rest, n + 1, a => x :: setIdx rest n a

/-- `dict.get` on the embedded cache dict. -/
def lookupChain {F : Type} : List (String × List F) → String → Option (List F)
  | [], _ => none
  | (k, v) :: rest, c => if k = c then some v else lookupChain rest c

/-- `Ruler.__find__`: index of the first rule with the given name,
`none` for python's `-1`. -/
def findRule {F : Type} : List (Rule F) → String → Option Nat
  | [], _ => none
  | r :: rest, n => if r.name = n then some 0 else (findRule rest n).map (· + 1)

/-- Set the `enabled` flag of the rule at an index
(`self.__rules__[idx].enabled = ...`). -/
def setEnabledAt {F : Type} : List (Rule F) → Nat → Bool → List (Rule F)
  | [], _, _ => []
  | r :: rest, 0, b => { r with enabled := b } :: rest
  | r :: rest, n + 1, b => r :: setEnabledAt rest n b

/-- Replace fn and alt of the rule at an index (body of `Ruler.at`). -/
def setFnAltAt {F : Type} : List (Rule F) → Nat → F → List String → List (Rule F)
  | [], _, _, _ => []
  | r :: rest, 0, f, a => { r with fn := f, alt := a } :: rest
  | r :: rest, n + 1, f, a => r :: setFnAltAt rest n f a

/-- `list.insert(idx, x)` for the indices `before`/`after` use. -/
def insertAt {α : Type} : List α → Nat → α → List α
  | l, 0, a => a :: l
  | [], _ + 1, a => [a]
  | x :: rest, n + 1, a => x :: insertAt rest n a

/-- Add a chain name to the collected set if not already present
(`chains.add(name)` on a python set, key order = first-insertion). -/
def addChain (acc : List String) (n : String) : List String :=
  if n ∈ acc then acc else acc ++ [n]

/-- First loop of `Ruler.__compile__`: the set of chain names in use,
seeded with the default chain `""`, collecting `rule.alt` of every
enabled rule. -/
def collectChains {F : Type} (rules : List (Rule F)) : List String :=
  rules.foldl (fun acc ru => if ru.enabled then ru.alt.foldl addChain acc else acc) [""]

/-- Inner loop of `Ruler.__compile__` for one chain: walk the rules in
registration order and keep the functions of enabled rules belonging to
the chain (`if chain and (chain not in rule.alt): continue`). -/
def rulesFor {F : Type} (rules : List (Rule F)) (chain : String) : List F :=
  (rules.filter (fun ru => ru.enabled && decide (chain = "" ∨ chain ∈ ru.alt))).map Rule.fn

/-- `Ruler.__compile__`: the full chain-to-function-list cache dict. -/
def compileCache {F : Type} (rules : List (Rule F)) : List (String × List F) :=
  (collectChains rules).map (fun chain => (chain, rulesFor rules chain))

/-- `Ruler.getRules`, returning the (possibly recompiled) ruler together
with the resulting function list.  The source never raises here: it
compiles the cache if it is `None` and then does a defaulting dict read
(`self.__cache__.get(chainName, []) or []`). -/
def getRulesSt {F : Type} (r : Ruler F) (chain : String) : Ruler F × List F :=
  match r.cache with
  | some m => (r, (lookupChain m chain).getD [])
  | none =>
    let m := compileCache r.rules
    (⟨r.rules, some m⟩, (lookupChain m chain).getD [])

/-- The value returned by `Ruler.getRules`. -/
def getRules {F : Type} (r : Ruler F) (chain : String) : List F :=
  (getRulesSt r chain).2

/-- `Ruler.push`: append a new enabled rule and drop the cache. -/
def push {F : Type} (r : Ruler F) (ruleName : String) (fn : F) (alt : List String) : Ruler F :=
  ⟨r.rules ++ [⟨ruleName, true, fn, alt⟩], none⟩

/-- `Ruler.at`: replace fn/alt of the named rule, or raise `KeyError`.
The error leaves the ruler untouched (the raise happens before any
mutation), which the `Except` return models by not producing a ruler. -/
def atRule {F : Type} (r : Ruler F) (ruleName : String) (fn : F) (alt : List String) :
    Except String (Ruler F) :=
  match findRule r.rules ruleName with
  | none => .error ("Parser rule not found: " ++ ruleName)
  | some idx => .ok ⟨setFnAltAt r.rules idx fn alt, none⟩

/-- `Ruler.before`: insert a new enabled rule before the anchor, or
raise `KeyError`. -/
def before {F : Type} (r : Ruler F) (beforeName ruleName : String) (fn : F)
    (alt : List String) : Except String (Ruler F) :=
  match findRule r.rules beforeName with
  | none => .error ("Parser rule not found: " ++ beforeName)
  | some idx => .ok ⟨insertAt r.rules idx ⟨ruleName, true, fn, alt⟩, none⟩

/-- `Ruler.after`: insert a new enabled rule after the anchor, or raise
`KeyError`. -/
def after {F : Type} (r : Ruler F) (afterName ruleName : String) (fn : F)
    (alt : List String) : Except String (Ruler F) :=
  match findRule r.rules afterName with
  | none => .error ("Parser rule not found: " ++ afterName)
  | some idx => .ok ⟨insertAt r.rules (idx + 1) ⟨ruleName, true, fn, alt⟩, none⟩

/-- The loop shared by `Ruler.enable` and `Ruler.disable` (with `b` the
flag value written).  It returns the rule list as mutated so far
together with either the collected result names or the `KeyError`
message; a raise mid-loop keeps the flags already written, exactly as in
the source, where the exception escapes after earlier iterations already
assigned `self.__rules__[idx].enabled`. -/
def enableNames {F : Type} (b : Bool) :
    List (Rule F) → List String → Bool → List (Rule F) × Except String (List String)
  | rules, [], _ => (rules, .ok [])
  | rules, n :: rest, ignoreInvalid =>
    match findRule rules n with
    | none =>
      if ignoreInvalid then enableNames b rules rest ignoreInvalid
      else (rules, .error ("Rules manager: invalid rule name " ++ n))
    | some idx =>
      match enableNames b (setEnabledAt rules idx b) rest ignoreInvalid with
      | (rs, .ok found) => (rs, .ok (n :: found))
      | (rs, .error e) => (rs, .error e)

/-- `Ruler.enable` on a list of names (a single python string argument
is first wrapped into a one-element list, see `enableOne`).  On normal
return the cache is cleared (`self.__cache__ = None` after the loop); on
a raise the cache statement is never reached, so the old cache value
survives next to the partially updated flags. -/
def enable {F : Type} (r : Ruler F) (names : List String) (ignoreInvalid : Bool) :
    Ruler F × Except String (List String) :=
  match enableNames true r.rules names ignoreInvalid with
  | (rs, .ok found) => (⟨rs, none⟩, .ok found)
  | (rs, .error e) => (⟨rs, r.cache⟩, .error e)

/-- The `isinstance(names, str)` wrapping: a single name behaves as the
one-element list. -/
def enableOne {F : Type} (r : Ruler F) (name : String) (ignoreInvalid : Bool) :
    Ruler F × Except String (List String) :=
  enable r [name] ignoreInvalid

/-- `Ruler.disable`, same loop with the flag written as `False`. -/
def disable {F : Type} (r : Ruler F) (names : List String) (ignoreInvalid : Bool) :
    Ruler F × Except String (List String) :=
  match enableNames false r.rules names ignoreInvalid with
  | (rs, .ok found) => (⟨rs, none⟩, .ok found)
  | (rs, .error e) => (⟨rs, r.cache⟩, .error e)

/-- `Ruler.enableOnly`: set every `enabled` flag to `False` (without
touching the cache) and then run `enable`; the python method discards
`enable`'s return value, the embedding keeps it for inspection. -/
def enableOnly {F : Type} (r : Ruler F) (names : List String) (ignoreInvalid : Bool) :
    Ruler F × Except String (List String) :=
  enable ⟨r.rules.map (fun ru => { ru with enabled := false }), r.cache⟩ names ignoreInvalid

/-- `Ruler.get_all_rules`. -/
def getAllRules {F : Type} (r : Ruler F) : List String :=
  r.rules.map Rule.name

/-- `Ruler.get_active_rules`. -/
def getActiveRules {F : Type} (r : Ruler F) : List String :=
  (r.rules.filter Rule.enabled).map Rule.name

/-! ## Smartquotes (rules_core/smartquotes.py)

Tokens are embedded with the four fields the rule reads or writes:
`type`, `level`, `content` (a `List Char`, python strings being unicode
code-point sequences) and the optional `children` list of an `inline`
token.  The three character classifiers live in `common/utils.py`, which
is outside the sources at hand, so they are modelled from the spec
(fixed ASCII punctuation fast path, unicode-category punctuation test,
whitespace test); every other definition is a direct transcription of
`smartquotes.py`. -/

inductive Token : Type where
  | mk : String → Int → List Char → Option (List Token) → Token

/-- The `type` tag of a token. -/
def Token.type : Token → String
  | .mk t _ _ _ => t

/-- The nesting `level` of a token. -/
def Token.level : Token → Int
  | .mk _ l _ _ => l

/-- The mutable `content` text of a token. -/
def Token.content : Token → List Char
  | .mk _ _ c _ => c

/-- The `children` of a token (`None` for non-container tokens). -/
def Token.children : Token → Option (List Token)
  | .mk _ _ _ ch => ch

/-- `token.content = ...`: same token with new content. -/
def Token.withContent : Token → List Char → Token
  | .mk t l _ ch, c => .mk t l c ch

/-- `token.children = ...`: same token with new children. -/
def Token.withChildren : Token → Option (List Token) → Token
  | .mk t l c _, ch => .mk t l c ch

/-- The four substitution glyph strings `state.md.options.quotes`,
indexed 0..3 in the source: double-open, double-close, single-open,
single-close. -/
structure Quotes where
  doubleOpen : List Char
  doubleClose : List Char
  singleOpen : List Char
  singleClose : List Char

/-- The slice of the shared options object the rule consumes. -/
structure SQOptions where
  typographer : Bool
  quotes : Quotes

/-- One entry of the transient matching stack: a dict
`{token, pos, single, level}` in the source.  The stack is embedded with
its TOP at the HEAD of the list (python appends at the end and scans
from the end). -/
structure SQItem where
  token : Nat
  pos : Nat
  single : Bool
  level : Int
deriving DecidableEq

/-- `APOSTROPHE`, the fixed replacement glyph U+2019. -/
def APOSTROPHE : Char := Char.ofNat 0x2019

/-- The ASCII single quote. -/
def squoteChar : Char := Char.ofNat 0x27

/-- The ASCII double quote. -/
def dquoteChar : Char := Char.ofNat 0x22

/-- `charCodeAt(s, i)` (defaulting to a space when out of range; the
source only calls it in range). -/
def codeAt (s : List Char) (i : Nat) : Nat :=
  ((nth s i).getD (Char.ofNat 0x20)).toNat

/-- `replaceAt(string, index, ch)`: splice `ch` over the single
character at `index`. -/
def replaceAt (s : List Char) (index : Nat) (ch : List Char) : List Char :=
  s.take index ++ ch ++ s.drop (index + 1)

/-- Modelled from the spec: the whitespace classification
(`isWhiteSpace` of `common/utils.py`, outside the given sources) —
ASCII space, tab, line breaks and the unicode space separators. -/
def isWhiteSpace (ch : Nat) : Bool :=
  ch == 0x09 || ch == 0x0A || ch == 0x0B || ch == 0x0C || ch == 0x0D || ch == 0x20 ||
    ch == 0xA0 || ch == 0x1680 || (0x2000 ≤ ch && ch ≤ 0x200A) || ch == 0x202F ||
    ch == 0x205F || ch == 0x3000

/-- Modelled from the spec: the fixed ASCII-punctuation fast path
(`isMdAsciiPunct` of `common/utils.py`, outside the given sources) —
the four ASCII blocks `!`..`/`, `:`..`@`, `[`..`` ` ``, `{`..`~`. -/
def isMdAsciiPunct (ch : Nat) : Bool :=
  (0x21 ≤ ch && ch ≤ 0x2F) || (0x3A ≤ ch && ch ≤ 0x40) ||
    (0x5B ≤ ch && ch ≤ 0x60) || (0x7B ≤ ch && ch ≤ 0x7E)

/-- Modelled from the spec: the unicode-aware punctuation test
(`isPunctChar` of `common/utils.py`, outside the given sources —
membership of the unicode general category P), tabulated over the Basic
Latin, Latin-1 and General Punctuation ranges this development
exercises. -/
def isPunctChar (ch : Nat) : Bool :=
  (0x21 ≤ ch && ch ≤ 0x23) || (0x25 ≤ ch && ch ≤ 0x2A) || (0x2C ≤ ch && ch ≤ 0x2F) ||
    ch == 0x3A || ch == 0x3B || ch == 0x3F || ch == 0x40 ||
    (0x5B ≤ ch && ch ≤ 0x5D) || ch == 0x5F || ch == 0x7B || ch == 0x7D ||
    ch == 0xA1 || ch == 0xA7 || ch == 0xAB || ch == 0xB6 || ch == 0xB7 ||
    ch == 0xBB || ch == 0xBF || (0x2010 ≤ ch && ch ≤ 0x2027) ||
    (0x2030 ≤ ch && ch ≤ 0x205E)

/-- Lines 105-115 of smartquotes.py: the base `canOpen`/`canClose`
computation from the whitespace/punctuation classification of the
surrounding characters (both flags start out `True`). -/
def quoteFlagsBase (isLastWhiteSpace isLastPunctChar isNextWhiteSpace isNextPunctChar : Bool) :
    Bool × Bool :=
  let canOpen := true
  let canClose := true
  let canOpen :=
    if isNextWhiteSpace then false
    else if isNextPunctChar then
      (if !(isLastWhiteSpace || isLastPunctChar) then false else canOpen)
    else canOpen
  let canClose :=
    if isLastWhiteSpace then false
    else if isLastPunctChar then
      (if !(isNextWhiteSpace || isNextPunctChar) then false else canClose)
    else canClose
  (canOpen, canClose)

/-- Lines 99-130 of smartquotes.py: classify the surrounding character
codes, apply the base rules, the `1""` inch special case, and the
ambiguous-case narrowing; returns `(canOpen, canClose)`. -/
def quoteFlags (lastChar nextChar : Nat) (isSingle : Bool) : Bool × Bool :=
  let isLastPunctChar := isMdAsciiPunct lastChar || isPunctChar lastChar
  let isNextPunctChar := isMdAsciiPunct nextChar || isPunctChar nextChar
  let isLastWhiteSpace := isWhiteSpace lastChar
  let isNextWhiteSpace := isWhiteSpace nextChar
  let p := quoteFlagsBase isLastWhiteSpace isLastPunctChar isNextWhiteSpace isNextPunctChar
  let p :=
    if nextChar = 0x22 ∧ isSingle = false ∧ 0x30 ≤ lastChar ∧ lastChar ≤ 0x39 then
      (false, false)
    else p
  if p.1 && p.2 then (isLastPunctChar, isNextPunctChar) else p

/-- The regex search `QUOTE_RE.search(text[lastIndex:])`, returning the
absolute index of the first ASCII quote at or after `pos`. -/
def findQuoteAux : List Char → Nat → Option Nat
  | [], _ => none
  | c :: rest, idx =>
    if c == squoteChar || c == dquoteChar then some idx else findQuoteAux rest (idx + 1)

/-- Absolute position of the next ASCII quote character at or after
`pos`, if any. -/
def findQuote (text : List Char) (pos : Nat) : Option Nat :=
  findQuoteAux (text.drop pos) pos

/-- Lines 70-79: walk backwards over the sibling tokens before index
`i` for the previous character, stopping at a soft/hard break and
skipping empty contents; defaults to a space (0x20). -/
def lookBack (tokens : List Token) : Nat → Nat
  | 0 => 0x20
  | j + 1 =>
    match nth tokens j with
    | none => 0x20
    | some tk =>
      if tk.type = "softbreak" ∨ tk.type = "hardbreak" then 0x20
      else if tk.content.length = 0 then lookBack tokens j
      else codeAt tk.content (tk.content.length - 1)

/-- Helper for `lookFwd`, scanning `count` further tokens from index
`j`. -/
def lookFwdAux (tokens : List Token) : Nat → Nat → Nat
  | 0, _ => 0x20
  | n + 1, j =>
    match nth tokens j with
    | none => 0x20
    | some tk =>
      if tk.type = "softbreak" ∨ tk.type = "hardbreak" then 0x20
      else if tk.content.length = 0 then lookFwdAux tokens n (j + 1)
      else codeAt tk.content 0

/-- Lines 88-97: walk forwards over the sibling tokens from index `j`
for the next character, stopping at a soft/hard break and skipping
empty contents; defaults to a space (0x20). -/
def lookFwd (tokens : List Token) (j : Nat) : Nat :=
  lookFwdAux tokens (tokens.length - j) j

/-- Lines 64-79: the previous character of the quote at `qIdx` — the
character before it in the same text when one exists, else the sibling
walk. -/
def prevCode (tokens : List Token) (i : Nat) (text : List Char) (qIdx : Nat) : Nat :=
  if 1 ≤ qIdx then codeAt text (qIdx - 1) else lookBack tokens i

/-- Lines 81-97: the next character of the quote at `qIdx` — the
character after it in the same text when one exists, else the sibling
walk from `i + 1`. -/
def nextCode (tokens : List Token) (i : Nat) (text : List Char) (qIdx : Nat) : Nat :=
  if qIdx + 1 < text.length then codeAt text (qIdx + 1) else lookFwd tokens (i + 1)

/-- Lines 142-147: rewind the stack (top first) for a closing match:
abandon at the first entry with a strictly lower level, succeed at the
first entry with the same level and the same single/double kind. -/
def findMatch : List SQItem → Int → Bool → Option Nat
  | [], _, _ => none
  | it :: rest, thisLevel, isSingle =>
    if it.level < thisLevel then none
    else if it.single == isSingle && it.level == thisLevel then some 0
    else (findMatch rest thisLevel isSingle).map (· + 1)

/-- Index of the first element satisfying a predicate. -/
def firstIdxWhere {α : Type} (p : α → Bool) : List α → Option Nat
  | [] => none
  | x :: rest => if p x then some 0 else (firstIdxWhere p rest).map (· + 1)

/-- Written from the spec's wording of the close-search, for comparison
with `findMatch`: "search the pending stack, from the top down, for the
nearest entry at a level equal to the current level with matching
single/double-ness, stopping the search early once an entry with a
lower level than current is reached" — i.e. the first matching entry of
the prefix of entries whose level is not lower than the current one. -/
def specSearch (stack : List SQItem) (thisLevel : Int) (isSingle : Bool) : Option Nat :=
  firstIdxWhere (fun it => it.single == isSingle && it.level == thisLevel)
    (stack.takeWhile (fun it => decide (thisLevel ≤ it.level)))

/-- `tokens[idx].content` (empty when out of range). -/
def contentAt (tokens : List Token) (idx : Nat) : List Char :=
  match nth tokens idx with
  | some t => t.content
  | none => []

/-- `tokens[idx].content = c`: in-place content assignment. -/
def setContent (tokens : List Token) (idx : Nat) (c : List Char) : List Token :=
  match nth tokens idx with
  | some t => setIdx tokens idx (t.withContent c)
  | none => tokens

/-- Lines 52-192: the per-text-token scan loop (`while pos < maximum`).
`fuel` bounds the number of iterations; `text.length` plays the role of
the `maximum` variable, which always equals `len(text)` in the source
because the two are only reassigned together.  Each iteration finds the
next ASCII quote, classifies it, and either rewrites a matched pair,
rewrites a lone single quote to the apostrophe glyph, pushes a pending
open quote, or just moves on. -/
def scanToken (q : Quotes) : Nat → List Token → Nat → Int → List SQItem → List Char → Nat →
    List Token × List SQItem
  | 0, tokens, _, _, stack, _, _ => (tokens, stack)
  | fuel + 1, tokens, i, thisLevel, stack, text, pos =>
    if pos < text.length then
      match findQuote text pos with
      | none => (tokens, stack)
      | some qIdx =>
        let isSingle := (nth text qIdx).getD (Char.ofNat 0x20) == squoteChar
        let lastChar := prevCode tokens i text qIdx
        let nextChar := nextCode tokens i text qIdx
        let flags := quoteFlags lastChar nextChar isSingle
        if !flags.1 && !flags.2 then
          if isSingle then
            scanToken q fuel
              (setContent tokens i (replaceAt (contentAt tokens i) qIdx [APOSTROPHE]))
              i thisLevel stack text (qIdx + 1)
          else
            scanToken q fuel tokens i thisLevel stack text (qIdx + 1)
        else if flags.2 then
          match findMatch stack thisLevel isSingle with
          | some k =>
            match nth stack k with
            | some item =>
              let openQ := if isSingle then q.singleOpen else q.doubleOpen
              let closeQ := if isSingle then q.singleClose else q.doubleClose
              let tokens1 := setContent tokens i (replaceAt (contentAt tokens i) qIdx closeQ)
              let tokens2 := setContent tokens1 item.token
                (replaceAt (contentAt tokens1 item.token) item.pos openQ)
              let pos1 := qIdx + 1 + closeQ.length - 1
              let pos2 := if item.token == i then pos1 + openQ.length - 1 else pos1
              scanToken q fuel tokens2 i thisLevel (stack.drop (k + 1)) (contentAt tokens2 i) pos2
            | none => (tokens, stack)
          | none =>
            if flags.1 then
              scanToken q fuel tokens i thisLevel
                (⟨i, qIdx, isSingle, thisLevel⟩ :: stack) text (qIdx + 1)
            else if isSingle then
              scanToken q fuel
                (setContent tokens i (replaceAt (contentAt tokens i) qIdx [APOSTROPHE]))
                i thisLevel stack text (qIdx + 1)
            else
              scanToken q fuel tokens i thisLevel stack text (qIdx + 1)
        else
          scanToken q fuel tokens i thisLevel
            (⟨i, qIdx, isSingle, thisLevel⟩ :: stack) text (qIdx + 1)
    else (tokens, stack)

/-- Lines 29-50: the outer loop of `process_inlines` over `n` further
child tokens starting at index `i`: per child, truncate the pending
stack to the entries whose level does not exceed the child's level, and
scan the child if it is a `text` token. -/
def processFrom (q : Quotes) : Nat → List Token → Nat → List SQItem → List Token
  | 0, tokens, _, _ => tokens
  | n + 1, tokens, i, stack =>
    match nth tokens i with
    | none => tokens
    | some token =>
      let thisLevel := token.level
      let stack1 := stack.dropWhile (fun it => decide (thisLevel < it.level))
      if token.type = "text" then
        let p := scanToken q (token.content.length + 1) tokens i thisLevel stack1 token.content 0
        processFrom q n p.1 (i + 1) p.2
      else
        processFrom q n tokens (i + 1) stack1

/-- `process_inlines(tokens, state)`: scan a whole child sequence with
an initially empty pending stack. -/
def process_inlines (q : Quotes) (tokens : List Token) : List Token :=
  processFrom q tokens.length tokens 0 []

/-- `QUOTE_RE.search(token.content)` as a boolean. -/
def hasQuote (s : List Char) : Bool :=
  s.any (fun c => c == squoteChar || c == dquoteChar)

/-- Lines 199-204, body of the top-level loop: descend into an `inline`
token whose own content contains an ASCII quote (the source asserts
`token.children is not None` there; a `none` child list is left
untouched). -/
def smartquotesStep (q : Quotes) (t : Token) : Token :=
  if t.type = "inline" ∧ hasQuote t.content then
    match t.children with
    | some cs => t.withChildren (some (process_inlines q cs))
    | none => t
  else t

/-- `smartquotes(state)`: the whole core rule — a no-op unless the
typographer option is on. -/
def smartquotes (opts : SQOptions) (tokens : List Token) : List Token :=
  if !opts.typographer then tokens
  else tokens.map (smartquotesStep opts.quotes)

/-- The standard English quote glyphs of the default options
(`“ ” ‘ ’`). -/
def stdQuotes : Quotes :=
  ⟨[Char.ofNat 0x201C], [Char.ofNat 0x201D], [Char.ofNat 0x2018], [Char.ofNat 0x2019]⟩

/-! ### Observation helpers used by the frame/effect statements -/

/-- The `type` of the token at an index. -/
def typeAt (ts : List Token) (k : Nat) : Option String :=
  (nth ts k).map Token.type

/-- The `level` of the token at an index. -/
def levelAt (ts : List Token) (k : Nat) : Option Int :=
  (nth ts k).map Token.level

/-- The `children` of the token at an index. -/
def childrenAt (ts : List Token) (k : Nat) : Option (Option (List Token)) :=
  (nth ts k).map Token.children

/-- The `content` of the token at an index, as an option. -/
def contentAtOpt (ts : List Token) (k : Nat) : Option (List Char) :=
  (nth ts k).map Token.content

/-- `new` is `old` with, at most, the `content` fields of its
`text`-type tokens rewritten: same length, and at every index the same
type, level and children, with the content also unchanged wherever the
token is not a `text` token. -/
def contentOnlyRewrite (old new : List Token) : Prop :=
  new.length = old.length ∧
  ∀ k : Nat, typeAt new k = typeAt old k ∧ levelAt new k = levelAt old k ∧
    childrenAt new k = childrenAt old k ∧
    (typeAt old k ≠ some "text" → contentAtOpt new k = contentAtOpt old k)

/-! ### Concrete fixtures for the inch-mark examples -/

/-- The code points of `6'2"`. -/
def sixTwoChars : List Char := ['6', squoteChar, '2', dquoteChar]

/-- `6'2"` after the transform: the `'` became the apostrophe glyph,
the `"` is untouched. -/
def sixTwoOutChars : List Char := ['6', APOSTROPHE, '2', dquoteChar]

/-- The code points of `1"x2"`. -/
def oneTwoChars : List Char := ['1', dquoteChar, 'x', '2', dquoteChar]

/-- A toplevel `inline` token holding one `text` child with the same
content, as the inline tokenizer produces for a plain paragraph. -/
def inlineTok (s : List Char) : Token :=
  .mk "inline" 0 s (some [.mk "text" 0 s none])

/-- The content of the single child of the single token of a stream of
the `inlineTok` shape (empty elsewhere): the observable text of a
one-paragraph document. -/
def childContent (ts : List Token) : List Char :=
  match ts with
  | [t] =>
    match t.children with
    | some [c] => c.content
    | _ => []
  | _ => []

/-! ## Lemmas about the Ruler cache compilation -/

theorem mem_addChain (acc : List String) (n x : String) :
    x ∈ addChain acc n ↔ x ∈ acc ∨ x = n := by
  unfold addChain
  by_cases h : n ∈ acc
  · rw [if_pos h]
    constructor
    · exact Or.inl
    · rintro (hx | rfl)
      · exact hx
      · exact h
  · rw [if_neg h]
    simp [List.mem_append]

theorem mem_foldl_addChain : ∀ (l acc : List String) (x : String),
    x ∈ l.foldl addChain acc ↔ x ∈ acc ∨ x ∈ l := by
  intro l
  induction l with
  | nil => intro acc x; simp
  | cons a rest ih =>
    intro acc x
    rw [List.foldl_cons, ih, mem_addChain, List.mem_cons]
    tauto

theorem mem_collect_aux {F : Type} :
    ∀ (rules : List (Rule F)) (acc : List String) (x : String),
      x ∈ rules.foldl
          (fun acc ru => if ru.enabled then ru.alt.foldl addChain acc else acc) acc ↔
        x ∈ acc ∨ ∃ ru ∈ rules, ru.enabled = true ∧ x ∈ ru.alt := by
  intro rules
  induction rules with
  | nil => intro acc x; simp
  | cons r rest ih =>
    intro acc x
    rw [List.foldl_cons]
    by_cases hr : r.enabled
    · rw [if_pos hr, ih, mem_foldl_addChain]
      constructor
      · rintro ((hx | hx) | ⟨ru, hru, he, hx⟩)
        · exact Or.inl hx
        · exact Or.inr ⟨r, List.mem_cons_self r rest, hr, hx⟩
        · exact Or.inr ⟨ru, List.mem_cons_of_mem _ hru, he, hx⟩
      · rintro (hx | ⟨ru, hru, he, hx⟩)
        · exact Or.inl (Or.inl hx)
        · rcases List.mem_cons.mp hru with rfl | hru
          · exact Or.inl (Or.inr hx)
          · exact Or.inr ⟨ru, hru, he, hx⟩
    · rw [if_neg hr, ih]
      constructor
      · rintro (hx | ⟨ru, hru, he, hx⟩)
        · exact Or.inl hx
        · exact Or.inr ⟨ru, List.mem_cons_of_mem _ hru, he, hx⟩
      · rintro (hx | ⟨ru, hru, he, hx⟩)
        · exact Or.inl hx
        · rcases List.mem_cons.mp hru with rfl | hru
          · exact absurd he hr
          · exact Or.inr ⟨ru, hru, he, hx⟩

theorem mem_collectChains {F : Type} (rules : List (Rule F)) (x : String) :
    x ∈ collectChains rules ↔ x = "" ∨ ∃ ru ∈ rules, ru.enabled = true ∧ x ∈ ru.alt := by
  unfold collectChains
  rw [mem_collect_aux]
  simp

theorem empty_mem_collectChains {F : Type} (rules : List (Rule F)) :
    "" ∈ collectChains rules :=
  (mem_collectChains rules "").mpr (Or.inl rfl)

theorem lookupChain_map {F : Type} (g : String → List F) :
    ∀ (l : List String) (x : String),
      lookupChain (l.map (fun c => (c, g c))) x = if x ∈ l then some (g x) else none := by
  intro l
  induction l with
  | nil => intro x; simp [lookupChain]
  | cons c rest ih =>
    intro x
    simp only [List.map_cons, lookupChain]
    by_cases h : c = x
    · subst h; simp
    · rw [if_neg h, ih]
      by_cases hx : x ∈ rest
      · rw [if_pos hx, if_pos (List.mem_cons_of_mem _ hx)]
      · rw [if_neg hx, if_neg ?_]
        rw [List.mem_cons]
        rintro (rfl | hc)
        · exact h rfl
        · exact hx hc

theorem rulesFor_eq_nil {F : Type} (rules : List (Rule F)) (chain : String)
    (hne : chain ≠ "") (h : ∀ ru ∈ rules, ru.enabled = true → chain ∉ ru.alt) :
    rulesFor rules chain = [] := by
  unfold rulesFor
  rw [List.filter_eq_nil_iff.mpr, List.map_nil]
  intro ru hru
  simp only [Bool.and_eq_true, decide_eq_true_eq, not_and]
  rintro he (h1 | h2)
  · exact hne h1
  · exact h ru hru he h2

theorem lookup_compileCache {F : Type} (rules : List (Rule F)) (chain : String) :
    (lookupChain (compileCache rules) chain).getD [] = rulesFor rules chain := by
  unfold compileCache
  rw [lookupChain_map]
  by_cases h : chain ∈ collectChains rules
  · rw [if_pos h]; rfl
  · rw [if_neg h]
    have hne : chain ≠ "" := fun hc => h (hc ▸ empty_mem_collectChains rules)
    rw [rulesFor_eq_nil rules chain hne]
    · rfl
    · intro ru hru he hmem
      exact h ((mem_collectChains rules chain).mpr (Or.inr ⟨ru, hru, he, hmem⟩))

theorem getRules_eq_rulesFor {F : Type} (r : Ruler F) (chain : String)
    (h : r.cache = none ∨ r.cache = some (compileCache r.rules)) :
    getRules r chain = rulesFor r.rules chain := by
  unfold getRules getRulesSt
  rcases h with h | h <;> rw [h] <;> exact lookup_compileCache r.rules chain

theorem getRulesSt_cache {F : Type} (r : Ruler F) (chain : String) (h : r.cache = none) :
    ((getRulesSt r chain).1).cache = some (compileCache r.rules) := by
  unfold getRulesSt
  rw [h]

theorem getRules_stable {F : Type} (r : Ruler F) (c c' : String) :
    getRules (getRulesSt r c).1 c' = getRules r c' := by
  unfold getRules getRulesSt
  cases h : r.cache <;> simp [h]

/-! ## Lemmas about enable/disable -/

theorem findRule_eq_none {F : Type} : ∀ (rules : List (Rule F)) (n : String),
    findRule rules n = none ↔ n ∉ rules.map Rule.name := by
  intro rules
  induction rules with
  | nil => intro n; simp [findRule]
  | cons r rest ih =>
    intro n
    by_cases h : r.name = n
    · simp [findRule, h]
    · simp only [findRule, if_neg h, Option.map_eq_none', ih, List.map_cons, List.mem_cons]
      constructor
      · rintro hn (hc | hc)
        · exact h hc.symm
        · exact hn hc
      · intro hn hc
        exact hn (Or.inr hc)

theorem mem_of_findRule_some {F : Type} (rules : List (Rule F)) (n : String) (i : Nat)
    (h : findRule rules n = some i) : n ∈ rules.map Rule.name := by
  by_contra hc
  rw [← findRule_eq_none rules n] at hc
  rw [hc] at h
  cases h

theorem setEnabledAt_map_name {F : Type} : ∀ (rules : List (Rule F)) (i : Nat) (b : Bool),
    (setEnabledAt rules i b).map Rule.name = rules.map Rule.name := by
  intro rules
  induction rules with
  | nil => intro i b; rfl
  | cons r rest ih =>
    intro i b
    cases i with
    | zero => simp [setEnabledAt]
    | succ j => simp [setEnabledAt, ih]

theorem map_upd_eq_self {F : Type} (g : Rule F → Rule F) :
    ∀ (rules : List (Rule F)) (n : String), (∀ ru ∈ rules, ru.name ≠ n) →
      rules.map (fun ru => if ru.name = n then g ru else ru) = rules := by
  intro rules
  induction rules with
  | nil => intro n _; rfl
  | cons r rest ih =>
    intro n h
    simp only [List.map_cons]
    rw [if_neg (h r (List.mem_cons_self r rest)),
      ih n (fun ru hru => h ru (List.mem_cons_of_mem _ hru))]

theorem setEnabledAt_eq_map {F : Type} (b : Bool) :
    ∀ (rules : List (Rule F)) (n : String) (i : Nat),
      (rules.map Rule.name).Nodup → findRule rules n = some i →
      setEnabledAt rules i b =
        rules.map (fun ru => if ru.name = n then { ru with enabled := b } else ru) := by
  intro rules
  induction rules with
  | nil => intro n i _ h; cases h
  | cons r rest ih =>
    intro n i hnd hf
    by_cases h : r.name = n
    · simp only [findRule, if_pos h, Option.some.injEq] at hf
      subst hf
      simp only [setEnabledAt, List.map_cons, if_pos h]
      have hnotin : ∀ ru ∈ rest, ru.name ≠ n := by
        intro ru hru hc
        have hhead : r.name ∉ rest.map Rule.name := (List.nodup_cons.mp (by simpa using hnd)).1
        exact hhead (by rw [h, ← hc]; exact List.mem_map_of_mem Rule.name hru)
      rw [map_upd_eq_self _ rest n hnotin]
    · simp only [findRule, if_neg h] at hf
      rcases Option.map_eq_some'.mp hf with ⟨j, hj, rfl⟩
      simp only [setEnabledAt, List.map_cons, if_neg h]
      rw [ih n j (by simpa using (List.nodup_cons.mp (by simpa using hnd)).2) hj]

theorem enableNames_res {F : Type} (b : Bool) :
    ∀ (names : List String) (rules : List (Rule F)) (ig : Bool),
      (ig = true ∨ ∀ n ∈ names, n ∈ rules.map Rule.name) →
      (enableNames b rules names ig).2 =
        .ok (names.filter (fun n => decide (n ∈ rules.map Rule.name))) := by
  intro names
  induction names with
  | nil => intro rules ig _; rfl
  | cons n rest ih =>
    intro rules ig hig
    cases hf : findRule rules n with
    | none =>
      have hnot : n ∉ rules.map Rule.name := (findRule_eq_none rules n).mp hf
      have higt : ig = true := by
        rcases hig with h | h
        · exact h
        · exact absurd (h n (List.mem_cons_self n rest)) hnot
      subst higt
      have hstep : enableNames b rules (n :: rest) true = enableNames b rules rest true := by
        simp [enableNames, hf]
      rw [hstep, ih rules true (Or.inl rfl), List.filter_cons,
        if_neg (by simpa using hnot)]
    | some idx =>
      have hmem : n ∈ rules.map Rule.name := mem_of_findRule_some rules n idx hf
      have hrest : ig = true ∨ ∀ m ∈ rest, m ∈ (setEnabledAt rules idx b).map Rule.name := by
        rcases hig with h | h
        · exact Or.inl h
        · exact Or.inr fun m hm => by
            rw [setEnabledAt_map_name]
            exact h m (List.mem_cons_of_mem _ hm)
      have h2 := ih (setEnabledAt rules idx b) ig hrest
      rw [setEnabledAt_map_name] at h2
      rcases h3 : enableNames b (setEnabledAt rules idx b) rest ig with ⟨rs, res⟩
      rw [h3] at h2
      simp only at h2
      simp only [enableNames, hf, h3, h2]
      rw [List.filter_cons, if_pos (by simpa using hmem)]

theorem enableNames_rules {F : Type} (b : Bool) :
    ∀ (names : List String) (rules : List (Rule F)) (ig : Bool),
      (rules.map Rule.name).Nodup →
      (ig = true ∨ ∀ n ∈ names, n ∈ rules.map Rule.name) →
      (enableNames b rules names ig).1 =
        rules.map (fun ru => if ru.name ∈ names then { ru with enabled := b } else ru) := by
  intro names
  induction names with
  | nil =>
    intro rules ig _ _
    have : rules.map (fun ru => if ru.name ∈ ([] : List String)
        then { ru with enabled := b } else ru) = rules := by
      rw [List.map_congr_left (fun ru _ => if_neg (List.not_mem_nil ru.name))]
      exact List.map_id rules
    rw [this]
    rfl
  | cons n rest ih =>
    intro rules ig hnd hig
    cases hf : findRule rules n with
    | none =>
      have hnot : n ∉ rules.map Rule.name := (findRule_eq_none rules n).mp hf
      have higt : ig = true := by
        rcases hig with h | h
        · exact h
        · exact absurd (h n (List.mem_cons_self n rest)) hnot
      subst higt
      have hstep : enableNames b rules (n :: rest) true = enableNames b rules rest true := by
        simp [enableNames, hf]
      rw [hstep, ih rules true hnd (Or.inl rfl)]
      refine List.map_congr_left fun ru hru => ?_
      have hne : ru.name ≠ n := fun hc => hnot (hc ▸ List.mem_map_of_mem Rule.name hru)
      by_cases hr : ru.name ∈ rest
      · rw [if_pos hr, if_pos (List.mem_cons_of_mem _ hr)]
      · rw [if_neg hr, if_neg ?_]
        rw [List.mem_cons]
        rintro (hc | hc)
        · exact hne hc
        · exact hr hc
    | some idx =>
      have hmem : n ∈ rules.map Rule.name := mem_of_findRule_some rules n idx hf
      have hset := setEnabledAt_eq_map b rules n idx hnd hf
      have hnd' : ((setEnabledAt rules idx b).map Rule.name).Nodup := by
        rw [setEnabledAt_map_name]; exact hnd
      have hrest : ig = true ∨ ∀ m ∈ rest, m ∈ (setEnabledAt rules idx b).map Rule.name := by
        rcases hig with h | h
        · exact Or.inl h
        · exact Or.inr fun m hm => by
            rw [setEnabledAt_map_name]
            exact h m (List.mem_cons_of_mem _ hm)
      have h2 := ih (setEnabledAt rules idx b) ig hnd' hrest
      rcases h3 : enableNames b (setEnabledAt rules idx b) rest ig with ⟨rs, res⟩
      rw [h3] at h2
      simp only at h2
      have hgoal : (enableNames b rules (n :: rest) ig).1 = rs := by
        simp only [enableNames, hf, h3]
        cases res <;> rfl
      rw [hgoal, h2, hset, List.map_map]
      refine List.map_congr_left fun ru _ => ?_
      by_cases hn : ru.name = n
      · simp only [Function.comp_apply, if_pos hn]
        by_cases hr : ru.name ∈ rest
        · rw [if_pos (by simpa using hr)]
          rw [if_pos (List.mem_cons.mpr (Or.inl hn))]
        · rw [if_neg (by simpa using hr)]
          rw [if_pos (List.mem_cons.mpr (Or.inl hn))]
      · simp only [Function.comp_apply, if_neg hn]
        by_cases hr : ru.name ∈ rest
        · rw [if_pos hr, if_pos (List.mem_cons_of_mem _ hr)]
        · rw [if_neg hr, if_neg ?_]
          rw [List.mem_cons]
          rintro (hc | hc)
          · exact hn hc
          · exact hr hc

theorem enableNames_err {F : Type} (b : Bool) :
    ∀ (names : List String) (rules : List (Rule F)) (n : String),
      n ∈ names → n ∉ rules.map Rule.name →
      ∃ msg, (enableNames b rules names false).2 = .error msg := by
  intro names
  induction names with
  | nil => intro rules n h _; cases h
  | cons m rest ih =>
    intro rules n hn hnot
    cases hf : findRule rules m with
    | none =>
      exact ⟨"Rules manager: invalid rule name " ++ m, by simp [enableNames, hf]⟩
    | some idx =>
      have hm : m ∈ rules.map Rule.name := mem_of_findRule_some rules m idx hf
      have hne : n ≠ m := fun hc => hnot (hc ▸ hm)
      have hn' : n ∈ rest := by
        rcases List.mem_cons.mp hn with h | h
        · exact absurd h hne
        · exact h
      have hnot' : n ∉ (setEnabledAt rules idx b).map Rule.name := by
        rw [setEnabledAt_map_name]; exact hnot
      rcases ih (setEnabledAt rules idx b) n hn' hnot' with ⟨msg, hmsg⟩
      rcases h3 : enableNames b (setEnabledAt rules idx b) rest false with ⟨rs, res⟩
      rw [h3] at hmsg
      simp only at hmsg
      refine ⟨msg, ?_⟩
      simp only [enableNames, hf, h3, hmsg]

theorem enable_ok_cache {F : Type} (r : Ruler F) (names : List String) (ig : Bool)
    (l : List String) (h : (enable r names ig).2 = .ok l) :
    (enable r names ig).1.cache = none := by
  unfold enable at h ⊢
  rcases h3 : enableNames true r.rules names ig with ⟨rs, res⟩
  rw [h3] at h
  cases res with
  | ok l2 => rfl
  | error e => exact Except.noConfusion h

theorem disable_ok_cache {F : Type} (r : Ruler F) (names : List String) (ig : Bool)
    (l : List String) (h : (disable r names ig).2 = .ok l) :
    (disable r names ig).1.cache = none := by
  unfold disable at h ⊢
  rcases h3 : enableNames false r.rules names ig with ⟨rs, res⟩
  rw [h3] at h
  cases res with
  | ok l2 => rfl
  | error e => exact Except.noConfusion h

/-! ## Claim theorems about the Ruler -/

/-- C3 (amended): whenever the cache has just been (re)compiled — by
`getRules` on a stale cache — it is exactly `compileCache` of the
current rules, which maps each chain name in use to exactly the list
obtained by walking the rule sequence in registration order and
collecting the functions of enabled rules belonging to that chain (the
default chain matching unconditionally); and every mutating operation
(`push`, `before`, `after`, `at`, `enable`, `disable`, `enableOnly`)
that RETURNS NORMALLY leaves the cache cleared.  (As originally stated
— "however it returns (normally or by raising)" — the claim is false:
see the counterexample, a raising call leaves the cache in place.) -/
theorem ruler_cache_invariant_C3 {F : Type} :
    (∀ (r : Ruler F) (chain : String), r.cache = none →
      ((getRulesSt r chain).1).cache = some (compileCache r.rules)) ∧
    (∀ (rules : List (Rule F)) (chain : String), chain ∈ collectChains rules →
      lookupChain (compileCache rules) chain = some (rulesFor rules chain)) ∧
    (∀ (r : Ruler F) (n : String) (f : F) (alt : List String),
      (push r n f alt).cache = none) ∧
    (∀ (r : Ruler F) (n n' : String) (f : F) (alt : List String) (r' : Ruler F),
      before r n n' f alt = .ok r' → r'.cache = none) ∧
    (∀ (r : Ruler F) (n n' : String) (f : F) (alt : List String) (r' : Ruler F),
      after r n n' f alt = .ok r' → r'.cache = none) ∧
    (∀ (r : Ruler F) (n : String) (f : F) (alt : List String) (r' : Ruler F),
      atRule r n f alt = .ok r' → r'.cache = none) ∧
    (∀ (r : Ruler F) (names : List String) (ig : Bool) (l : List String),
      (enable r names ig).2 = .ok l → (enable r names ig).1.cache = none) ∧
    (∀ (r : Ruler F) (names : List String) (ig : Bool) (l : List String),
      (disable r names ig).2 = .ok l → (disable r names ig).1.cache = none) ∧
    (∀ (r : Ruler F) (names : List String) (ig : Bool) (l : List String),
      (enableOnly r names ig).2 = .ok l → (enableOnly r names ig).1.cache = none) := by
  refine ⟨getRulesSt_cache, ?_, fun _ _ _ _ => rfl, ?_, ?_, ?_, enable_ok_cache,
    disable_ok_cache, ?_⟩
  · intro rules chain h
    unfold compileCache
    rw [lookupChain_map, if_pos h]
  · intro r n n' f alt r' h
    unfold before at h
    cases hf : findRule r.rules n with
    | none => rw [hf] at h; exact Except.noConfusion h
    | some idx =>
      rw [hf] at h
      cases h
      rfl
  · intro r n n' f alt r' h
    unfold after at h
    cases hf : findRule r.rules n with
    | none => rw [hf] at h; exact Except.noConfusion h
    | some idx =>
      rw [hf] at h
      cases h
      rfl
  · intro r n f alt r' h
    unfold atRule at h
    cases hf : findRule r.rules n with
    | none => rw [hf] at h; exact Except.noConfusion h
    | some idx =>
      rw [hf] at h
      cases h
      rfl
  · intro r names ig l h
    exact enable_ok_cache _ names ig l h

theorem ruler_cache_invariant_C3_witness :
    ((getRulesSt (⟨[⟨"a", true, (0 : Nat), []⟩], none⟩ : Ruler Nat) "").1).cache =
      some (compileCache [(⟨"a", true, (0 : Nat), []⟩ : Rule Nat)]) :=
  ruler_cache_invariant_C3.1 _ "" rfl

/-- C3 counterexample: with a compiled cache present, `at` on a missing
name raises `KeyError` and the operation leaves the cache present (the
raise happens before `self.__cache__ = None`), refuting "every mutating
operation, however it returns (normally or by raising), leaves the
cache cleared/stale". -/
theorem ruler_cache_raise_counter_C3 :
    atRule ((getRulesSt (⟨[⟨"a", true, (0 : Nat), []⟩], none⟩ : Ruler Nat) "").1)
        "missing" 5 [] = .error "Parser rule not found: missing" ∧
    ((getRulesSt (⟨[⟨"a", true, (0 : Nat), []⟩], none⟩ : Ruler Nat) "").1).cache =
      some [("", [0])] := by
  exact ⟨by decide, by decide⟩

/-- C4: `getRules` is total (the embedding returns a list for every
chain name and ruler state; the source has no raise path), and in any
state whose cache is stale or consistent it returns exactly `rulesFor`:
for the default chain `""` the functions of all enabled rules in
registration order, for any other chain the functions of enabled rules
whose `alt` list contains it, and hence `[]` (never an absent value)
for a chain with no matching functions. -/
theorem getRules_total_C4 {F : Type} (r : Ruler F) (chain : String)
    (h : r.cache = none ∨ r.cache = some (compileCache r.rules)) :
    getRules r chain = rulesFor r.rules chain ∧
    getRules r "" = (r.rules.filter Rule.enabled).map Rule.fn ∧
    (chain ≠ "" → (∀ ru ∈ r.rules, ru.enabled = true → chain ∉ ru.alt) →
      getRules r chain = []) := by
  refine ⟨getRules_eq_rulesFor r chain h, ?_, ?_⟩
  · rw [getRules_eq_rulesFor r "" h]
    unfold rulesFor
    congr 1
    apply List.filter_congr
    intro ru _
    simp
  · intro hne hnot
    rw [getRules_eq_rulesFor r chain h, rulesFor_eq_nil r.rules chain hne hnot]

theorem getRules_total_C4_witness :
    getRules (⟨[⟨"a", true, (7 : Nat), ["x"]⟩], none⟩ : Ruler Nat) "y" =
      rulesFor [(⟨"a", true, (7 : Nat), ["x"]⟩ : Rule Nat)] "y" ∧
    getRules (⟨[⟨"a", true, (7 : Nat), ["x"]⟩], none⟩ : Ruler Nat) "" =
      ([(⟨"a", true, (7 : Nat), ["x"]⟩ : Rule Nat)].filter Rule.enabled).map Rule.fn ∧
    ("y" ≠ "" →
      (∀ ru ∈ [(⟨"a", true, (7 : Nat), ["x"]⟩ : Rule Nat)], ru.enabled = true → "y" ∉ ru.alt) →
      getRules (⟨[⟨"a", true, (7 : Nat), ["x"]⟩], none⟩ : Ruler Nat) "y" = []) :=
  getRules_total_C4 _ "y" (Or.inl rfl)

/-- C5: `enable`/`disable` set the flag of each named rule and return
the names actually found; a missing name raises `KeyError` unless
`ignoreInvalid` is set, in which case it is skipped; in particular
`enable ["missing"]` with `ignoreInvalid` returns `[]` without raising
while without it the call raises; and a single string argument is the
one-element-list call. -/
theorem enable_disable_C5 {F : Type} (r : Ruler F) (names : List String) :
    ((r.rules.map Rule.name).Nodup →
      enable r names true =
        (⟨r.rules.map (fun ru => if ru.name ∈ names then { ru with enabled := true } else ru),
          none⟩,
         .ok (names.filter (fun n => decide (n ∈ r.rules.map Rule.name))))) ∧
    ((r.rules.map Rule.name).Nodup →
      disable r names true =
        (⟨r.rules.map (fun ru => if ru.name ∈ names then { ru with enabled := false } else ru),
          none⟩,
         .ok (names.filter (fun n => decide (n ∈ r.rules.map Rule.name))))) ∧
    ((∀ n ∈ names, n ∈ r.rules.map Rule.name) →
      (enable r names false).2 = .ok names ∧ (disable r names false).2 = .ok names) ∧
    (∀ n ∈ names, n ∉ r.rules.map Rule.name →
      (∃ msg, (enable r names false).2 = .error msg) ∧
      ∃ msg, (disable r names false).2 = .error msg) ∧
    ("missing" ∉ r.rules.map Rule.name →
      enable r ["missing"] true = (⟨r.rules, none⟩, .ok []) ∧
      enable r ["missing"] false = (r, .error "Rules manager: invalid rule name missing")) ∧
    (∀ (n : String) (ig : Bool), enableOne r n ig = enable r [n] ig) := by
  refine ⟨?_, ?_, ?_, ?_, ?_, fun _ _ => rfl⟩
  · intro hnd
    unfold enable
    rcases h3 : enableNames true r.rules names true with ⟨rs, res⟩
    have h1 := enableNames_res true names r.rules true (Or.inl rfl)
    have h2 := enableNames_rules true names r.rules true hnd (Or.inl rfl)
    rw [h3] at h1 h2
    simp only at h1 h2
    rw [h1, h2]
  · intro hnd
    unfold disable
    rcases h3 : enableNames false r.rules names true with ⟨rs, res⟩
    have h1 := enableNames_res false names r.rules true (Or.inl rfl)
    have h2 := enableNames_rules false names r.rules true hnd (Or.inl rfl)
    rw [h3] at h1 h2
    simp only at h1 h2
    rw [h1, h2]
  · intro hall
    have hfe : names.filter (fun n => decide (n ∈ r.rules.map Rule.name)) = names :=
      List.filter_eq_self.mpr fun n hn => decide_eq_true (hall n hn)
    constructor
    · unfold enable
      rcases h3 : enableNames true r.rules names false with ⟨rs, res⟩
      have h1 := enableNames_res true names r.rules false (Or.inr hall)
      rw [h3] at h1
      simp only at h1
      rw [h1, hfe]
    · unfold disable
      rcases h3 : enableNames false r.rules names false with ⟨rs, res⟩
      have h1 := enableNames_res false names r.rules false (Or.inr hall)
      rw [h3] at h1
      simp only at h1
      rw [h1, hfe]
  · intro n hn hnot
    constructor
    · rcases enableNames_err true names r.rules n hn hnot with ⟨msg, hmsg⟩
      refine ⟨msg, ?_⟩
      unfold enable
      rcases h3 : enableNames true r.rules names false with ⟨rs, res⟩
      rw [h3] at hmsg
      simp only at hmsg
      rw [hmsg]
    · rcases enableNames_err false names r.rules n hn hnot with ⟨msg, hmsg⟩
      refine ⟨msg, ?_⟩
      unfold disable
      rcases h3 : enableNames false r.rules names false with ⟨rs, res⟩
      rw [h3] at hmsg
      simp only at hmsg
      rw [hmsg]
  · intro hnot
    have hf : findRule r.rules "missing" = none := (findRule_eq_none r.rules "missing").mpr hnot
    constructor
    · simp [enable, enableNames, hf]
    · simp [enable, enableNames, hf]

theorem enable_disable_C5_witness :
    enable (⟨[⟨"a", false, (0 : Nat), []⟩, ⟨"b", false, 1, []⟩], none⟩ : Ruler Nat) ["b"] true =
      (⟨[⟨"a", false, 0, []⟩, ⟨"b", true, 1, []⟩], none⟩, .ok ["b"]) := by
  have h :=
    (enable_disable_C5 (⟨[⟨"a", false, (0 : Nat), []⟩, ⟨"b", false, 1, []⟩], none⟩ : Ruler Nat)
      ["b"]).1 (by decide)
  exact h.trans (by decide)

/-- C6 (amended): `getRules` is referentially stable — a second call
after any `getRules` call (which may recompile the cache) returns the
same list for every chain, and `push` (like `before`/`after`) always
changes the default chain's result, appending the new function; but a
mutating operation does NOT always change the result of some chain —
see the counterexample (enabling an already-enabled rule changes
nothing at all). -/
theorem getRules_stability_C6 {F : Type} :
    (∀ (r : Ruler F) (c c' : String), getRules (getRulesSt r c).1 c' = getRules r c') ∧
    (∀ (r : Ruler F) (n : String) (f : F) (alt : List String),
      (r.cache = none ∨ r.cache = some (compileCache r.rules)) →
      getRules (push r n f alt) "" = getRules r "" ++ [f] ∧
      getRules (push r n f alt) "" ≠ getRules r "") := by
  refine ⟨getRules_stable, ?_⟩
  intro r n f alt h
  have hpush : getRules (push r n f alt) "" = rulesFor (r.rules ++ [⟨n, true, f, alt⟩]) "" :=
    getRules_eq_rulesFor _ "" (Or.inl rfl)
  have happ : rulesFor (r.rules ++ [⟨n, true, f, alt⟩]) "" = rulesFor r.rules "" ++ [f] := by
    unfold rulesFor
    rw [List.filter_append, List.map_append]
    congr 1
  have hr := getRules_eq_rulesFor r "" h
  constructor
  · rw [hpush, happ, hr]
  · rw [hpush, happ, hr]
    intro hc
    have hlen := congrArg List.length hc
    simp at hlen

theorem getRules_stability_C6_witness :
    getRules (push (⟨[⟨"a", true, (3 : Nat), []⟩], none⟩ : Ruler Nat) "b" 4 []) "" =
      getRules (⟨[⟨"a", true, (3 : Nat), []⟩], none⟩ : Ruler Nat) "" ++ [4] :=
  ((getRules_stability_C6.2 _ "b" 4 [] (Or.inl rfl)).1)

/-- C6 counterexample: `enable` on an already-enabled rule is a
mutating operation after which the entire ruler state — rules and cache
alike — is exactly what it was before, so its `getRules` result is
unchanged on every chain, refuting "every mutating operation changes
the getRules result for at least one affected chain". -/
theorem mutation_unobservable_counter_C6 :
    enable (⟨[⟨"a", true, (0 : Nat), []⟩], none⟩ : Ruler Nat) ["a"] false =
      ((⟨[⟨"a", true, (0 : Nat), []⟩], none⟩ : Ruler Nat), .ok ["a"]) := by
  decide

/-- C10: `enable` is not atomic on error.  Starting from a ruler with
two disabled rules and a freshly compiled cache `{"": []}`, the call
`enable ["a", "missing"]` raises on `"missing"` only after rule `"a"`
has already been switched on, and it does not clear the cache, so the
stale compiled cache survives next to the changed flag: `getRules ""`
on the resulting state still answers `[]` from the cache although the
recomputation of the enabled functions would be `[0]`. -/
theorem enable_error_nonatomic_C10 :
    enable ((getRulesSt
          (⟨[⟨"a", false, (0 : Nat), []⟩, ⟨"b", false, 1, []⟩], none⟩ : Ruler Nat) "").1)
        ["a", "missing"] false =
      (⟨[⟨"a", true, 0, []⟩, ⟨"b", false, 1, []⟩], some [("", [])]⟩,
       .error "Rules manager: invalid rule name missing") ∧
    getRules (⟨[⟨"a", true, (0 : Nat), []⟩, ⟨"b", false, 1, []⟩],
        some [("", [])]⟩ : Ruler Nat) "" = [] ∧
    rulesFor [(⟨"a", true, (0 : Nat), []⟩ : Rule Nat), ⟨"b", false, 1, []⟩] "" = [0] := by
  exact ⟨by decide, by decide, by decide⟩

/-! ## Claim theorems about the smartquotes classification -/

/-- C1: for every candidate quote (the classification is applied to the
preceding/following character codes however they were determined — from
the same token, by walking sibling tokens, or the space default):
`canOpen` is false when the following character is whitespace, and also
false when it is punctuation while the preceding character is neither
whitespace nor punctuation; symmetrically `canClose` is false when the
preceding character is whitespace, and also false when it is
punctuation while the following character is neither whitespace nor
punctuation; and when the base rules leave both flags true, the result
is narrowed to `(preceding is punctuation, following is
punctuation)`. -/
theorem quote_flags_C1 (lastChar nextChar : Nat) (isSingle : Bool) :
    (isWhiteSpace nextChar = true → (quoteFlags lastChar nextChar isSingle).1 = false) ∧
    ((isMdAsciiPunct nextChar || isPunctChar nextChar) = true →
      isWhiteSpace lastChar = false → (isMdAsciiPunct lastChar || isPunctChar lastChar) = false →
      (quoteFlags lastChar nextChar isSingle).1 = false) ∧
    (isWhiteSpace lastChar = true → (quoteFlags lastChar nextChar isSingle).2 = false) ∧
    ((isMdAsciiPunct lastChar || isPunctChar lastChar) = true →
      isWhiteSpace nextChar = false → (isMdAsciiPunct nextChar || isPunctChar nextChar) = false →
      (quoteFlags lastChar nextChar isSingle).2 = false) ∧
    ((quoteFlagsBase (isWhiteSpace lastChar) (isMdAsciiPunct lastChar || isPunctChar lastChar)
          (isWhiteSpace nextChar) (isMdAsciiPunct nextChar || isPunctChar nextChar)).1 = true →
      (quoteFlagsBase (isWhiteSpace lastChar) (isMdAsciiPunct lastChar || isPunctChar lastChar)
          (isWhiteSpace nextChar) (isMdAsciiPunct nextChar || isPunctChar nextChar)).2 = true →
      quoteFlags lastChar nextChar isSingle =
        ((isMdAsciiPunct lastChar || isPunctChar lastChar),
          (isMdAsciiPunct nextChar || isPunctChar nextChar))) := by
  by_cases hinch : nextChar = 0x22 ∧ isSingle = false ∧ 0x30 ≤ lastChar ∧ lastChar ≤ 0x39
  · obtain ⟨hn, hs, hd1, hd2⟩ := hinch
    subst hn
    have hlw : isWhiteSpace lastChar = false := by
      interval_cases lastChar <;> decide
    have hlp : (isMdAsciiPunct lastChar || isPunctChar lastChar) = false := by
      interval_cases lastChar <;> decide
    have hcond : True ∧ isSingle = false ∧ 0x30 ≤ lastChar ∧ lastChar ≤ 0x39 :=
      ⟨trivial, hs, hd1, hd2⟩
    have hq : quoteFlags lastChar 0x22 isSingle = (false, false) := by
      simp only [quoteFlags]
      simp only [if_pos hcond]
      simp
    refine ⟨fun _ => by rw [hq], fun _ _ _ => by rw [hq], fun _ => by rw [hq],
      fun _ _ _ => by rw [hq], ?_⟩
    intro h1 _
    rw [hlw, hlp] at h1
    exact absurd h1 (by decide)
  · simp only [quoteFlags, if_neg hinch]
    generalize (isMdAsciiPunct lastChar || isPunctChar lastChar) = lp
    generalize (isMdAsciiPunct nextChar || isPunctChar nextChar) = np
    generalize isWhiteSpace lastChar = lw
    generalize isWhiteSpace nextChar = nw
    revert lp np lw nw
    decide

theorem quote_flags_C1_witness :
    isWhiteSpace 0x20 = true ∧ (quoteFlags 0x61 0x20 true).1 = false :=
  ⟨by decide, (quote_flags_C1 0x61 0x20 true).1 (by decide)⟩

theorem findMatch_eq_specSearch :
    ∀ (stack : List SQItem) (lvl : Int) (sgl : Bool),
      findMatch stack lvl sgl = specSearch stack lvl sgl := by
  intro stack
  induction stack with
  | nil => intro lvl sgl; rfl
  | cons it rest ih =>
    intro lvl sgl
    unfold findMatch specSearch
    by_cases h1 : it.level < lvl
    · have hc : ¬((fun it : SQItem => decide (lvl ≤ it.level)) it = true) := by
        simp
        omega
      rw [if_pos h1, List.takeWhile_cons, if_neg hc]
      rfl
    · have hc : (fun it : SQItem => decide (lvl ≤ it.level)) it = true := by
        simp
        omega
      rw [if_neg h1, List.takeWhile_cons, if_pos hc]
      by_cases h2 : (it.single == sgl && it.level == lvl) = true
      · unfold firstIdxWhere
        rw [if_pos h2, if_pos h2]
      · unfold firstIdxWhere
        rw [if_neg h2, if_neg h2, ih lvl sgl]
        rfl

/-- C2: on a candidate quote with `canClose` true, the scan (a) runs
the stack search, which equals the spec's description — nearest entry
(top-down) with equal level and matching single/double kind, abandoned
at the first entry of strictly lower level (`findMatch =
`specSearch`); (b) on a match, rewrites the recorded opening position
with the options' open glyph for the quote kind and the current
position with the close glyph, pops the matched entry and everything
above it (`stack.drop (k+1)` with the top at the head), and resumes
after the close glyph at `qIdx + 1 + |close| - 1`, further shifted by
`|open| - 1` when the opening token is the current token; (c) on no
match, when `canOpen` is also false and the quote is the single
variant, rewrites just this character to the fixed apostrophe glyph
U+2019 and resumes right after it. -/
theorem close_quote_C2 :
    (∀ (stack : List SQItem) (lvl : Int) (sgl : Bool),
      findMatch stack lvl sgl = specSearch stack lvl sgl) ∧
    (∀ (q : Quotes) (fuel : Nat) (tokens : List Token) (i : Nat) (lvl : Int)
        (stack : List SQItem) (text : List Char) (pos qIdx : Nat),
      pos < text.length →
      findQuote text pos = some qIdx →
      ∀ isSingle, isSingle = ((nth text qIdx).getD (Char.ofNat 0x20) == squoteChar) →
      ∀ lastChar, lastChar = prevCode tokens i text qIdx →
      ∀ nextChar, nextChar = nextCode tokens i text qIdx →
      (quoteFlags lastChar nextChar isSingle).2 = true →
      ((∀ (k : Nat) (item : SQItem), findMatch stack lvl isSingle = some k →
          nth stack k = some item →
          scanToken q (fuel + 1) tokens i lvl stack text pos =
            (let openQ := if isSingle then q.singleOpen else q.doubleOpen
             let closeQ := if isSingle then q.singleClose else q.doubleClose
             let tokens1 := setContent tokens i (replaceAt (contentAt tokens i) qIdx closeQ)
             let tokens2 := setContent tokens1 item.token
               (replaceAt (contentAt tokens1 item.token) item.pos openQ)
             let pos1 := qIdx + 1 + closeQ.length - 1
             let pos2 := if item.token == i then pos1 + openQ.length - 1 else pos1
             scanToken q fuel tokens2 i lvl (stack.drop (k + 1)) (contentAt tokens2 i) pos2)) ∧
        (findMatch stack lvl isSingle = none →
          (quoteFlags lastChar nextChar isSingle).1 = false → isSingle = true →
          scanToken q (fuel + 1) tokens i lvl stack text pos =
            scanToken q fuel
              (setContent tokens i (replaceAt (contentAt tokens i) qIdx [APOSTROPHE]))
              i lvl stack text (qIdx + 1)))) := by
  refine ⟨findMatch_eq_specSearch, ?_⟩
  intro q fuel tokens i lvl stack text pos qIdx h0 hfq isSingle hs lastChar hl nextChar hn hcc
  subst hs hl hn
  constructor
  · intro k item hk hitem
    simp only [scanToken, if_pos h0, hfq]
    simp only [hcc, hk, hitem]
    simp
  · intro hk hco hss
    rw [hss] at hcc hco hk
    simp only [scanToken, if_pos h0, hfq, hss]
    simp only [hcc, hco, hk]
    simp

theorem close_quote_C2_witness :
    findMatch [⟨0, 0, false, 0⟩] 0 false = some 0 ∧
    scanToken stdQuotes 6 [Token.mk "text" 0 [dquoteChar, 'a', dquoteChar] none] 0 0
        [⟨0, 0, false, 0⟩] [dquoteChar, 'a', dquoteChar] 1 =
      scanToken stdQuotes 5
        [Token.mk "text" 0 [Char.ofNat 0x201C, 'a', Char.ofNat 0x201D] none] 0 0 []
        [Char.ofNat 0x201C, 'a', Char.ofNat 0x201D] 3 := by
  refine ⟨by decide, ?_⟩
  exact (close_quote_C2.2 stdQuotes 5 [Token.mk "text" 0 [dquoteChar, 'a', dquoteChar] none]
    0 0 [⟨0, 0, false, 0⟩] [dquoteChar, 'a', dquoteChar] 1 2 (by decide) (by decide)
    false (by decide) 0x61 (by decide) 0x20 (by decide) (by decide)).1 0 ⟨0, 0, false, 0⟩
    (by decide) (by decide)

/-! ## Frame and effect lemmas for the smartquotes pass -/

theorem nth_some_lt {α : Type} : ∀ (l : List α) (i : Nat) (x : α),
    nth l i = some x → i < l.length := by
  intro l
  induction l with
  | nil => intro i x h; cases h
  | cons a rest ih =>
    intro i x h
    cases i with
    | zero => simp
    | succ j => exact Nat.succ_lt_succ (ih j x h)

theorem nth_mem {α : Type} : ∀ (l : List α) (i : Nat) (x : α), nth l i = some x → x ∈ l := by
  intro l
  induction l with
  | nil => intro i x h; cases h
  | cons a rest ih =>
    intro i x h
    cases i with
    | zero => cases h; exact List.mem_cons_self a rest
    | succ j => exact List.mem_cons_of_mem a (ih j x h)

theorem length_setIdx {α : Type} : ∀ (l : List α) (i : Nat) (a : α),
    (setIdx l i a).length = l.length := by
  intro l
  induction l with
  | nil => intro i a; rfl
  | cons x rest ih =>
    intro i a
    cases i with
    | zero => rfl
    | succ j => simp [setIdx, ih]

theorem nth_setIdx_self {α : Type} : ∀ (l : List α) (i : Nat) (a : α),
    i < l.length → nth (setIdx l i a) i = some a := by
  intro l
  induction l with
  | nil => intro i a h; cases h
  | cons x rest ih =>
    intro i a h
    cases i with
    | zero => rfl
    | succ j => exact ih j a (Nat.lt_of_succ_lt_succ h)

theorem nth_setIdx_ne {α : Type} : ∀ (l : List α) (i j : Nat) (a : α),
    i ≠ j → nth (setIdx l i a) j = nth l j := by
  intro l
  induction l with
  | nil => intro i j a _; rfl
  | cons x rest ih =>
    intro i j a hne
    cases i with
    | zero =>
      cases j with
      | zero => exact absurd rfl hne
      | succ j2 => rfl
    | succ i2 =>
      cases j with
      | zero => rfl
      | succ j2 => exact ih i2 j2 a (fun hc => hne (by rw [hc]))

theorem withContent_type (t : Token) (c : List Char) : (t.withContent c).type = t.type := by
  cases t; rfl

theorem withContent_level (t : Token) (c : List Char) : (t.withContent c).level = t.level := by
  cases t; rfl

theorem withContent_children (t : Token) (c : List Char) :
    (t.withContent c).children = t.children := by
  cases t; rfl

theorem setContent_length (tokens : List Token) (idx : Nat) (c : List Char) :
    (setContent tokens idx c).length = tokens.length := by
  unfold setContent
  cases h : nth tokens idx with
  | none => rfl
  | some t => exact length_setIdx tokens idx (t.withContent c)

theorem setContent_typeAt (tokens : List Token) (idx : Nat) (c : List Char) (k : Nat) :
    typeAt (setContent tokens idx c) k = typeAt tokens k := by
  unfold setContent typeAt
  cases h : nth tokens idx with
  | none => rfl
  | some t =>
    by_cases hk : idx = k
    · subst hk
      rw [nth_setIdx_self tokens idx (t.withContent c) (nth_some_lt tokens idx t h), h]
      simp [withContent_type]
    · rw [nth_setIdx_ne tokens idx k (t.withContent c) hk]

theorem setContent_levelAt (tokens : List Token) (idx : Nat) (c : List Char) (k : Nat) :
    levelAt (setContent tokens idx c) k = levelAt tokens k := by
  unfold setContent levelAt
  cases h : nth tokens idx with
  | none => rfl
  | some t =>
    by_cases hk : idx = k
    · subst hk
      rw [nth_setIdx_self tokens idx (t.withContent c) (nth_some_lt tokens idx t h), h]
      simp [withContent_level]
    · rw [nth_setIdx_ne tokens idx k (t.withContent c) hk]

theorem setContent_childrenAt (tokens : List Token) (idx : Nat) (c : List Char) (k : Nat) :
    childrenAt (setContent tokens idx c) k = childrenAt tokens k := by
  unfold setContent childrenAt
  cases h : nth tokens idx with
  | none => rfl
  | some t =>
    by_cases hk : idx = k
    · subst hk
      rw [nth_setIdx_self tokens idx (t.withContent c) (nth_some_lt tokens idx t h), h]
      simp [withContent_children]
    · rw [nth_setIdx_ne tokens idx k (t.withContent c) hk]

theorem setContent_contentAtOpt_ne (tokens : List Token) (idx : Nat) (c : List Char) (k : Nat)
    (hk : idx ≠ k) : contentAtOpt (setContent tokens idx c) k = contentAtOpt tokens k := by
  unfold setContent contentAtOpt
  cases h : nth tokens idx with
  | none => rfl
  | some t => rw [nth_setIdx_ne tokens idx k (t.withContent c) hk]

theorem contentOnlyRewrite_refl (ts : List Token) : contentOnlyRewrite ts ts :=
  ⟨rfl, fun _ => ⟨rfl, rfl, rfl, fun _ => rfl⟩⟩

theorem contentOnlyRewrite_trans {a b c : List Token}
    (h1 : contentOnlyRewrite a b) (h2 : contentOnlyRewrite b c) : contentOnlyRewrite a c := by
  refine ⟨h2.1.trans h1.1, fun k => ?_⟩
  obtain ⟨t1, l1, c1, ct1⟩ := h1.2 k
  obtain ⟨t2, l2, c2, ct2⟩ := h2.2 k
  refine ⟨t2.trans t1, l2.trans l1, c2.trans c1, fun h => ?_⟩
  refine (ct2 ?_).trans (ct1 h)
  rw [t1]
  exact h

theorem setContent_rewrite (tokens : List Token) (idx : Nat) (c : List Char)
    (h : typeAt tokens idx = some "text") :
    contentOnlyRewrite tokens (setContent tokens idx c) := by
  refine ⟨setContent_length tokens idx c, fun k =>
    ⟨setContent_typeAt tokens idx c k, setContent_levelAt tokens idx c k,
      setContent_childrenAt tokens idx c k, fun hne => ?_⟩⟩
  by_cases hk : idx = k
  · subst hk
    exact absurd h hne
  · exact setContent_contentAtOpt_ne tokens idx c k hk

theorem mem_of_mem_dropWhile {α : Type} (p : α → Bool) :
    ∀ (l : List α) (x : α), x ∈ l.dropWhile p → x ∈ l := by
  intro l
  induction l with
  | nil => intro x h; simp at h
  | cons a rest ih =>
    intro x h
    rw [List.dropWhile_cons] at h
    by_cases hp : p a = true
    · rw [if_pos hp] at h
      exact List.mem_cons_of_mem _ (ih x h)
    · rw [if_neg hp] at h
      exact h

theorem scanToken_shape (q : Quotes) :
    ∀ (fuel : Nat) (tokens : List Token) (i : Nat) (lvl : Int) (stack : List SQItem)
      (text : List Char) (pos : Nat),
      typeAt tokens i = some "text" →
      (∀ it ∈ stack, typeAt tokens it.token = some "text") →
      contentOnlyRewrite tokens (scanToken q fuel tokens i lvl stack text pos).1 ∧
      ∀ it ∈ (scanToken q fuel tokens i lvl stack text pos).2,
        typeAt (scanToken q fuel tokens i lvl stack text pos).1 it.token = some "text" := by
  intro fuel
  induction fuel with
  | zero =>
    intro tokens i lvl stack text pos hi hstack
    exact ⟨contentOnlyRewrite_refl tokens, hstack⟩
  | succ fuel ih =>
    intro tokens i lvl stack text pos hi hstack
    have step : ∀ (tokens' : List Token) (stack' : List SQItem) (text' : List Char) (pos' : Nat),
        contentOnlyRewrite tokens tokens' →
        typeAt tokens' i = some "text" →
        (∀ it ∈ stack', typeAt tokens' it.token = some "text") →
        contentOnlyRewrite tokens (scanToken q fuel tokens' i lvl stack' text' pos').1 ∧
        ∀ it ∈ (scanToken q fuel tokens' i lvl stack' text' pos').2,
          typeAt (scanToken q fuel tokens' i lvl stack' text' pos').1 it.token = some "text" := by
      intro tokens' stack' text' pos' h1 h2 h3
      obtain ⟨hrw, hstk⟩ := ih tokens' i lvl stack' text' pos' h2 h3
      exact ⟨contentOnlyRewrite_trans h1 hrw, hstk⟩
    simp only [scanToken]
    split
    · split
      · exact ⟨contentOnlyRewrite_refl tokens, hstack⟩
      · next qIdx hfq =>
        split
        · split
          · refine step _ _ _ _ (setContent_rewrite tokens i _ hi) ?_ ?_
            · rw [setContent_typeAt]
              exact hi
            · intro it hit
              rw [setContent_typeAt]
              exact hstack it hit
          · exact step _ _ _ _ (contentOnlyRewrite_refl tokens) hi hstack
        · split
          · split
            · next k hk =>
              split
              · next item hitem =>
                refine step _ _ _ _ ?_ ?_ ?_
                · refine contentOnlyRewrite_trans (setContent_rewrite tokens i _ hi)
                    (setContent_rewrite _ item.token _ ?_)
                  rw [setContent_typeAt]
                  exact hstack item (nth_mem stack k item hitem)
                · rw [setContent_typeAt, setContent_typeAt]
                  exact hi
                · intro it hit
                  rw [setContent_typeAt, setContent_typeAt]
                  exact hstack it (List.drop_subset _ _ hit)
              · exact ⟨contentOnlyRewrite_refl tokens, hstack⟩
            · split
              · refine step _ _ _ _ (contentOnlyRewrite_refl tokens) hi ?_
                intro it hit
                rcases List.mem_cons.mp hit with rfl | hit2
                · exact hi
                · exact hstack it hit2
              · split
                · refine step _ _ _ _ (setContent_rewrite tokens i _ hi) ?_ ?_
                  · rw [setContent_typeAt]
                    exact hi
                  · intro it hit
                    rw [setContent_typeAt]
                    exact hstack it hit
                · exact step _ _ _ _ (contentOnlyRewrite_refl tokens) hi hstack
          · refine step _ _ _ _ (contentOnlyRewrite_refl tokens) hi ?_
            intro it hit
            rcases List.mem_cons.mp hit with rfl | hit2
            · exact hi
            · exact hstack it hit2
    · exact ⟨contentOnlyRewrite_refl tokens, hstack⟩



theorem processFrom_shape (q : Quotes) :
    ∀ (n : Nat) (tokens : List Token) (i : Nat) (stack : List SQItem),
      (∀ it ∈ stack, typeAt tokens it.token = some "text") →
      contentOnlyRewrite tokens (processFrom q n tokens i stack) := by
  intro n
  induction n with
  | zero => intro tokens i stack _; exact contentOnlyRewrite_refl tokens
  | succ n ih =>
    intro tokens i stack hstack
    cases htok : nth tokens i with
    | none =>
      simp only [processFrom, htok]
      exact contentOnlyRewrite_refl tokens
    | some token =>
      simp only [processFrom, htok]
      have hstack1 : ∀ it ∈ stack.dropWhile (fun it => decide (token.level < it.level)),
          typeAt tokens it.token = some "text" := fun it hit =>
        hstack it (mem_of_mem_dropWhile _ stack it hit)
      by_cases hty : token.type = "text"
      · rw [if_pos hty]
        have hi : typeAt tokens i = some "text" := by
          simp [typeAt, htok, hty]
        obtain ⟨hrw, hstk⟩ := scanToken_shape q (token.content.length + 1) tokens i token.level
          (stack.dropWhile (fun it => decide (token.level < it.level))) token.content 0 hi hstack1
        refine contentOnlyRewrite_trans hrw (ih _ (i + 1) _ ?_)
        exact hstk
      · rw [if_neg hty]
        exact ih tokens (i + 1) _ hstack1

theorem process_inlines_shape (q : Quotes) (cs : List Token) :
    contentOnlyRewrite cs (process_inlines q cs) :=
  processFrom_shape q cs.length cs 0 [] (fun it hit => absurd hit (List.not_mem_nil it))



theorem nth_map {α β : Type} (f : α → β) : ∀ (l : List α) (k : Nat),
    nth (l.map f) k = (nth l k).map f := by
  intro l
  induction l with
  | nil => intro k; rfl
  | cons a rest ih =>
    intro k
    cases k with
    | zero => rfl
    | succ j => exact ih j

theorem withChildren_type (t : Token) (ch : Option (List Token)) :
    (t.withChildren ch).type = t.type := by
  cases t; rfl

theorem withChildren_level (t : Token) (ch : Option (List Token)) :
    (t.withChildren ch).level = t.level := by
  cases t; rfl

theorem withChildren_content (t : Token) (ch : Option (List Token)) :
    (t.withChildren ch).content = t.content := by
  cases t; rfl

theorem withChildren_children (t : Token) (ch : Option (List Token)) :
    (t.withChildren ch).children = ch := by
  cases t; rfl

/-- C8: with the typographer option off, smartquotes returns the token
stream unchanged for every input; and when it runs, its only mutation
is rewriting content fields of text-type child tokens in place: the
output has the same length, and at every index the same type, level and
own content, with the child sequence replaced by a content-only rewrite
(same length, same types, levels and nested children at every position,
content changed only at text tokens) — so it never inserts, removes or
reorders tokens and never changes a type, level or children
structure. -/
theorem smartquotes_frame_C8 :
    (∀ (opts : SQOptions) (ts : List Token), opts.typographer = false → smartquotes opts ts = ts) ∧
    (∀ (opts : SQOptions) (ts : List Token), (smartquotes opts ts).length = ts.length) ∧
    (∀ (opts : SQOptions) (ts : List Token) (k : Nat) (o : Token),
      nth ts k = some o →
      ∃ t2, nth (smartquotes opts ts) k = some t2 ∧
        t2.type = o.type ∧ t2.level = o.level ∧ t2.content = o.content ∧
        ((t2.children = none ∧ o.children = none) ∨
          ∃ oc nc, o.children = some oc ∧ t2.children = some nc ∧ contentOnlyRewrite oc nc)) := by
  have hself : ∀ (o : Token),
      o.type = o.type ∧ o.level = o.level ∧ o.content = o.content ∧
        ((o.children = none ∧ o.children = none) ∨
          ∃ oc nc, o.children = some oc ∧ o.children = some nc ∧ contentOnlyRewrite oc nc) := by
    intro o
    refine ⟨rfl, rfl, rfl, ?_⟩
    cases hch : o.children with
    | none => exact Or.inl ⟨rfl, rfl⟩
    | some oc => exact Or.inr ⟨oc, oc, rfl, rfl, contentOnlyRewrite_refl oc⟩
  refine ⟨?_, ?_, ?_⟩
  · intro opts ts h
    simp [smartquotes, h]
  · intro opts ts
    cases htyp : opts.typographer <;> simp [smartquotes, htyp]
  · intro opts ts k o hk
    cases htyp : opts.typographer with
    | false =>
      have hid : smartquotes opts ts = ts := by simp [smartquotes, htyp]
      rw [hid, hk]
      exact ⟨o, rfl, hself o⟩
    | true =>
      have hmap : smartquotes opts ts = ts.map (smartquotesStep opts.quotes) := by
        simp [smartquotes, htyp]
      rw [hmap, nth_map, hk]
      refine ⟨smartquotesStep opts.quotes o, rfl, ?_⟩
      unfold smartquotesStep
      by_cases hcond : o.type = "inline" ∧ hasQuote o.content = true
      · rw [if_pos hcond]
        cases hch : o.children with
        | none => exact ⟨rfl, rfl, rfl, Or.inl ⟨hch, rfl⟩⟩
        | some cs =>
          refine ⟨withChildren_type o _, withChildren_level o _, withChildren_content o _, ?_⟩
          refine Or.inr ⟨cs, process_inlines opts.quotes cs, rfl, ?_,
            process_inlines_shape opts.quotes cs⟩
          rw [withChildren_children]
      · rw [if_neg hcond]
        exact hself o

theorem smartquotes_frame_C8_witness :
    ∃ t2, nth (smartquotes ⟨true, stdQuotes⟩ [inlineTok [dquoteChar]]) 0 = some t2 ∧
      t2.type = (inlineTok [dquoteChar]).type ∧ t2.level = (inlineTok [dquoteChar]).level ∧
      t2.content = (inlineTok [dquoteChar]).content ∧
      ((t2.children = none ∧ (inlineTok [dquoteChar]).children = none) ∨
        ∃ oc nc, (inlineTok [dquoteChar]).children = some oc ∧ t2.children = some nc ∧
          contentOnlyRewrite oc nc) :=
  smartquotes_frame_C8.2.2 ⟨true, stdQuotes⟩ [inlineTok [dquoteChar]] 0 (inlineTok [dquoteChar])
    rfl

/-- C9: with the typographer on, smartquotes is the pointwise map of
`smartquotesStep` over the top-level tokens, and the step leaves any
token untouched unless its type is `inline` AND its own content field
contains an ASCII quote character — in particular an inline token whose
children hold quotes but whose own content does not is skipped and
returned identically. -/
theorem smartquotes_skip_C9 :
    (∀ (q : Quotes) (ts : List Token),
      smartquotes ⟨true, q⟩ ts = ts.map (smartquotesStep q)) ∧
    (∀ (q : Quotes) (t : Token), ¬(t.type = "inline" ∧ hasQuote t.content = true) →
      smartquotesStep q t = t) := by
  constructor
  · intro q ts
    rfl
  · intro q t h
    unfold smartquotesStep
    rw [if_neg h]

theorem smartquotes_skip_C9_witness :
    (¬((Token.mk "inline" 0 ['a'] (some [Token.mk "text" 0 [squoteChar] none])).type = "inline" ∧
        hasQuote (Token.mk "inline" 0 ['a']
          (some [Token.mk "text" 0 [squoteChar] none])).content = true)) ∧
    smartquotesStep stdQuotes
        (Token.mk "inline" 0 ['a'] (some [Token.mk "text" 0 [squoteChar] none])) =
      Token.mk "inline" 0 ['a'] (some [Token.mk "text" 0 [squoteChar] none]) :=
  ⟨by decide, smartquotes_skip_C9.2 stdQuotes _ (by decide)⟩

/-- C7 (amended): a `"` immediately followed by another `"` with an
ASCII digit before it is forced to `canOpen = canClose = false` (the
inch special case), and `1"x2"` is left entirely unchanged by the
transform; but `6'2"` is NOT left unconverted at both digit-adjacent
marks: its `"` stays ASCII while the `'` is rewritten to the apostrophe
glyph U+2019 by the mid-word rule (see the counterexample). -/
theorem inch_case_C7 :
    (∀ (lastChar : Nat), 0x30 ≤ lastChar → lastChar ≤ 0x39 →
      quoteFlags lastChar 0x22 false = (false, false)) ∧
    smartquotes ⟨true, stdQuotes⟩ [inlineTok oneTwoChars] = [inlineTok oneTwoChars] ∧
    smartquotes ⟨true, stdQuotes⟩ [inlineTok sixTwoChars] =
      [Token.mk "inline" 0 sixTwoChars (some [Token.mk "text" 0 sixTwoOutChars none])] := by
  refine ⟨?_, ?_, ?_⟩
  · intro lastChar h1 h2
    interval_cases lastChar <;> decide
  · rfl
  · rfl

theorem inch_case_C7_witness :
    quoteFlags 0x31 0x22 false = (false, false) :=
  inch_case_C7.1 0x31 (by decide) (by decide)

/-- C7 counterexample: running smartquotes with typographer on over
`6'2"` does not leave the content unchanged — the digit-adjacent foot
mark `'` is converted (to U+2019), refuting "leaves the foot/inch marks
unconverted at the digit-adjacent quotes". -/
theorem inch_case_counter_C7 :
    childContent (smartquotes ⟨true, stdQuotes⟩ [inlineTok sixTwoChars]) ≠ sixTwoChars ∧
    childContent [inlineTok sixTwoChars] = sixTwoChars := by
  exact ⟨by decide, by decide⟩

end Mdit
